import Mathlib

/-!
Verification of ping_review: the campaign controller and its statistics block.

A shallow embedding of the two programs of the repository,

* `ping.go` (namespace `PingGo`): the bounded-cycles event loop (Policy A),
* `Delay_Trains2.go` (namespace `DelayTrains2`): the train-capture event loop
  (Policy B) with the sequence/RTT export,

and of the statistics block that both programs share verbatim.

Modelling conventions.

* The `select` statement of each loop consumes one event at a time; a run is a
  list of events, handled in order.  Which `break loop` was taken is recorded
  in a `Status` field of the state.
* Go `int` counters (`sent`, `received`, `crec`) are `Int`.  The counters that
  grow by one per handled event cannot wrap around in any run; the assignment
  `sent += trainS` of Delay_Trains2.go, whose increment is a flag of the command
  line, wraps around as a 64-bit `int` does (`wrapInt64`).
* A `float32` is the rational number it denotes.  The sample
  `float32(res.rtt)/float32(time.Millisecond)` is computed as Go computes it:
  the conversion and the division each round to the nearest `float32`, ties to
  even (`roundF32`).  For an `int64` number of nanoseconds both results are in
  the normal range of `float32`, so neither overflow nor subnormal numbers occur.
  The statistics block is computed in exact arithmetic over the samples.
* A Go `map` is an association list; the order of the list is the order in which
  `range` happens to visit the entries.
* Printed lines are values of `Line`; the wall-clock value `time.Now()` that
  `ping.go` appends to an "unreachable" line is left out.
-/

namespace PingReview

/-! ## Shared data -/

/-- The `response` struct of both files: replying address, RTT (a
`time.Duration`, in nanoseconds) and sequence number. -/
structure response where
  addr : String
  rtt : Int
  seqn : Int
  deriving DecidableEq, Repr

/-- The integer nearest to `y`, a tie going to the even one. -/
def roundHalfEven (y : ℚ) : ℤ :=
  let f := ⌊y⌋
  if y - f < 1 / 2 then f
  else if 1 / 2 < y - f then f + 1
  else if f % 2 = 0 then f else f + 1

/-- The `float32` nearest to `x`, ties to even: `x` is scaled by the power of two
that brings it to 24 significant bits, rounded to an integer, and scaled back. -/
def roundF32 (x : ℚ) : ℚ :=
  if x = 0 then 0
  else
    let u : ℤ := Int.log 2 |x| - 23
    (roundHalfEven (x / 2 ^ u) : ℚ) * 2 ^ u

/-- The sample `float32(res.rtt)/float32(time.Millisecond)`, in milliseconds:
the conversion of `res.rtt` rounds, `float32(time.Millisecond)` is `1000000`
exactly, and the division rounds. -/
def rttMs (res : response) : ℚ :=
  roundF32 (roundF32 (res.rtt : ℚ) / 1000000)

/-- The value that a 64-bit Go `int` holds after an addition whose exact result
is `x`. -/
def wrapInt64 (x : Int) : Int :=
  (x + 2 ^ 63) % 2 ^ 64 - 2 ^ 63

/-- Lines printed on standard output by the two loops. -/
inductive Line where
  /-- The line `"%s : unreachable"`. -/
  | unreachable (host : String)
  /-- The line `"%d bytes from %s: icmp_seq=%d ttl=%d time=%.2f ms"`. -/
  | reply (bytes : Int) (host : String) (icmpSeq : Int) (ttl : Int) (timeMs : ℚ)
  /-- The line `"get interrupted"` (ping.go). -/
  | interrupted
  /-- The line `"Ping failed: <err>"`. -/
  | pingFailed (err : String)
  /-- The empty line printed when a reply completes the run (Delay_Trains2.go). -/
  | blank
  /-- The line `"We Entered onIdle"` (Delay_Trains2.go). -/
  | enteredOnIdle
  /-- The line `"We Entered on Done"` (Delay_Trains2.go). -/
  | enteredOnDone
  deriving DecidableEq

/-- Where the control of `ping` is: still inside `loop:`, or out of it through
one of its `break loop` statements (or through a run-time panic). -/
inductive Status where
  /-- Inside the loop, waiting in `select`. -/
  | running
  /-- Left through `case <-c`. -/
  | interrupted
  /-- Left because the termination test of the policy was met. -/
  | completed
  /-- Left through `case <-p.Done()`. -/
  | engineDone
  /-- Stopped by the run-time panic of an integer division by a zero train size. -/
  | panicked
  deriving DecidableEq, Repr

/-! ## The statistics block (ping.go 194-216, Delay_Trains2.go 146-167) -/

/-- The four numbers of the line `rtt min/avg/max/mdev`. -/
structure Stats where
  min : ℚ
  max : ℚ
  avg : ℚ
  mdev : ℚ
  deriving DecidableEq

/-- One iteration of the first `for _, val := range results` loop, on the
triple `(min, max, avg)`. -/
def statsStep (acc : ℚ × ℚ × ℚ) (val : ℚ) : ℚ × ℚ × ℚ :=
  let min := if val < acc.1 then val else acc.1
  let max := if val > acc.2.1 then val else acc.2.1
  (min, max, acc.2.2 + val)

/-- The statistics block: nothing when there is no sample, otherwise
`min = 1000000`, `max = -1`, `avg = 0`, `mdev = 0` followed by the two loops
over `results`. -/
def summarize (results : List ℚ) : Option Stats :=
  let lenResults : ℚ := (results.length : ℚ)
  if lenResults > 0 then
    let acc := results.foldl statsStep (1000000, -1, 0)
    let avg := acc.2.2 / lenResults
    let mdev := results.foldl (fun mdev val => mdev + (val - avg) * (val - avg)) 0
    some { min := acc.1, max := acc.2.1, avg := avg, mdev := mdev / lenResults }
  else
    none

/-! ## ping.go: the bounded-cycles loop (Policy A) -/

namespace PingGo

/-- The four cases of the `select` of ping.go.  `idle` carries the value of the
engine field `p.Size` read when the reply line is printed; `done` carries
`p.Err()`. -/
inductive Event where
  | interrupt
  | recv (res : response)
  | idle (size : Int)
  | done (err : Option String)
  deriving DecidableEq

/-- The variables of `ping` that the loop reads and writes.  `replies` is the
map `replies := make(map[string]*response)`, a `nil` pointer being `none`. -/
structure State where
  sent : Int
  received : Int
  results : List ℚ
  replies : List (String × Option response)
  out : List Line
  status : Status
  deriving DecidableEq

/-- The test `_, ok := replies[host]`. -/
def hasKey (replies : List (String × Option response)) (host : String) : Bool :=
  replies.any (fun e => decide (e.1 = host))

/-- The assignment `replies[host] = v` to a key that is present. -/
def setSlot (replies : List (String × Option response)) (host : String)
    (v : Option response) : List (String × Option response) :=
  replies.map (fun e => if e.1 = host then (e.1, v) else e)

/-- The body of `case res := <-onRecv` (lines 157-162). -/
def onRecv (s : State) (res : response) : State :=
  let s := { s with received := s.received + 1 }
  let s := { s with results := s.results ++ [rttMs res] }
  if hasKey s.replies res.addr then
    { s with replies := setSlot s.replies res.addr (some res) }
  else
    s

/-- One iteration of `for host, r := range replies` (lines 164-174). -/
def idleStep (size : Int) (s : State) (e : String × Option response) : State :=
  let s :=
    match e.2 with
    | none => { s with out := s.out ++ [Line.unreachable e.1], sent := s.sent + 1 }
    | some r =>
      { s with
        out := s.out ++ [Line.reply (size + 56) e.1 (r.seqn + 1) 128 (rttMs r)],
        sent := s.sent + 1 }
  { s with replies := setSlot s.replies e.1 none }

/-- The body of `case <-onIdle` (lines 163-174). -/
def onIdle (size : Int) (s : State) : State :=
  s.replies.foldl (idleStep size) s

/-- The line that one iteration of `for host, r := range replies` prints for the
entry `e`. -/
def idleLine (size : Int) (e : String × Option response) : Line :=
  match e.2 with
  | none => Line.unreachable e.1
  | some r => Line.reply (size + 56) e.1 (r.seqn + 1) 128 (rttMs r)

/-- Whether an event is an idle notification. -/
def isIdle : Event → Bool
  | Event.idle _ => true
  | _ => false

/-- Whether an event is an interrupt or the completion signal of the engine. -/
def isStop : Event → Bool
  | Event.interrupt => true
  | Event.done _ => true
  | _ => false

/-- The labelled loop `loop:` (lines 150-185) run on a list of events.  With no
event left and `sent < count` the program is blocked in `select`. -/
def loop (count : Int) : List Event → State → State
  | [], s => if s.sent < count then s else { s with status := Status.completed }
  | e :: es, s =>
    if s.sent < count then
      match e with
      | Event.interrupt =>
        { s with out := s.out ++ [Line.interrupted], status := Status.interrupted }
      | Event.recv res => loop count es (onRecv s res)
      | Event.idle size => loop count es (onIdle size s)
      | Event.done err =>
        let s :=
          match err with
          | some msg => { s with out := s.out ++ [Line.pingFailed msg] }
          | none => s
        { s with status := Status.engineDone }
    else
      { s with status := Status.completed }

/-- The state on entry of the loop: `sent = 0`, `received = 0`, no sample, and
the single key `ra.String()` in `replies`, bound to `nil`. -/
def init (ra : String) : State :=
  { sent := 0, received := 0, results := [], replies := [(ra, none)], out := [],
    status := Status.running }

/-- The function `ping` of ping.go from the loop on: the final state of the loop
and, once the loop has been left, the statistics block.  While the loop is
still waiting in `select` nothing has been printed after it. -/
def ping (ra : String) (count : Int) (events : List Event) : State × Option Stats :=
  let s := loop count events (init ra)
  if s.status = Status.running then (s, none) else (s, summarize s.results)

end PingGo

/-! ## Delay_Trains2.go: the train-capture loop (Policy B) and the export -/

namespace DelayTrains2

/-- The four cases of the `select` of Delay_Trains2.go.  `recv` and `idle` carry
the values of the engine fields `p.Size` and `p.SentICMP` read by the handler;
`done` carries `p.Err()`. -/
inductive Event where
  | interrupt
  | recv (res : response) (size : Int) (SentICMP : Int)
  | idle (SentICMP : Int)
  | done (err : Option String)
  deriving DecidableEq

/-- The variables of `ping` that the loop reads and writes. -/
structure State where
  sent : Int
  received : Int
  crec : Int
  results : List ℚ
  out : List Line
  status : Status
  deriving DecidableEq

/-- The assignments and the print of `case res := <-onRecv` (lines 114-117). -/
def onRecv (s : State) (res : response) (size : Int) : State :=
  let s := { s with results := s.results ++ [rttMs res] }
  let s := { s with received := s.received + 1 }
  let s := { s with crec := s.crec + 1 }
  { s with out := s.out ++ [Line.reply (size + 56) res.addr res.seqn 128 (rttMs res)] }

/-- The part of `case <-onIdle` after the termination test (lines 127-132). -/
def onIdle (hostname : String) (trainS : Int) (s : State) : State :=
  let s := { s with sent := wrapInt64 (s.sent + trainS) }
  if s.crec = 0 then
    { s with out := s.out ++ [Line.unreachable hostname] }
  else
    { s with crec := 0 }

/-- The labelled loop `loop:` (lines 108-140) run on a list of events.  Go's `/`
on `int` truncates toward zero (`Int.tdiv`) and panics on a zero divisor. -/
def loop (hostname : String) (count trainS : Int) : List Event → State → State
  | [], s => s
  | e :: es, s =>
    match e with
    | Event.interrupt => { s with status := Status.interrupted }
    | Event.recv res size SentICMP =>
      let s := onRecv s res size
      if trainS = 0 then
        { s with status := Status.panicked }
      else if SentICMP.tdiv trainS ≥ count ∧ s.received.tdiv trainS = count then
        { s with out := s.out ++ [Line.blank], status := Status.completed }
      else
        loop hostname count trainS es s
    | Event.idle SentICMP =>
      if trainS = 0 then
        { s with status := Status.panicked }
      else if SentICMP.tdiv trainS ≥ count then
        { s with out := s.out ++ [Line.enteredOnIdle], status := Status.completed }
      else
        loop hostname count trainS es (onIdle hostname trainS s)
    | Event.done err =>
      let s :=
        match err with
        | some msg => { s with out := s.out ++ [Line.pingFailed msg] }
        | none => s
      { s with out := s.out ++ [Line.enteredOnDone], status := Status.engineDone }

/-- The state on entry of the loop: `sent = trainS`, the other counters zero. -/
def init (trainS : Int) : State :=
  { sent := trainS, received := 0, crec := 0, results := [], out := [],
    status := Status.running }

/-- The events that the loop takes out of its channels when run from `s`: all
of them up to and including the one on which it leaves the loop. -/
def processed (hostname : String) (count trainS : Int) : List Event → State → List Event
  | [], _ => []
  | e :: es, s =>
    match e with
    | Event.interrupt => [e]
    | Event.recv res size SentICMP =>
      let s := onRecv s res size
      if trainS = 0 then [e]
      else if SentICMP.tdiv trainS ≥ count ∧ s.received.tdiv trainS = count then [e]
      else e :: processed hostname count trainS es s
    | Event.idle SentICMP =>
      if trainS = 0 then [e]
      else if SentICMP.tdiv trainS ≥ count then [e]
      else e :: processed hostname count trainS es (onIdle hostname trainS s)
    | Event.done _ => [e]

/-- The replies carried by the reply events of a list, in order. -/
def replyEvents : List Event → List response
  | [] => []
  | Event.recv res _ _ :: es => res :: replyEvents es
  | _ :: es => replyEvents es

/-! ### The export (lines 169-185) -/

/-- The keys collected by `for k := range p.SeqsAndRTTS`. -/
def keysOf (SeqsAndRTTS : List (Int × ℚ)) : List Int :=
  SeqsAndRTTS.map Prod.fst

/-- The call `sort.Ints(keys)`: the ascending rearrangement of `keys`. -/
def sortInts (keys : List Int) : List Int :=
  keys.insertionSort (fun a b => a ≤ b)

/-- The map read `p.SeqsAndRTTS[k]` (the zero value when `k` is absent). -/
def valueAt (SeqsAndRTTS : List (Int × ℚ)) (k : Int) : ℚ :=
  (SeqsAndRTTS.lookup k).getD 0

/-- Two digits, with a leading zero. -/
def pad2 (n : Nat) : String :=
  if n < 10 then "0" ++ toString n else toString n

/-- The verb `%.2f` on an exact value: sign, integer part, point, and the two
decimals of the value rounded to the nearest hundredth, ties to even. -/
def fmtF2 (v : ℚ) : String :=
  let n := v.num.natAbs * 100
  let q := n / v.den
  let r := n % v.den
  let h := if 2 * r < v.den then q else if v.den < 2 * r then q + 1
    else if q % 2 = 0 then q else q + 1
  (if v < 0 then "-" else "") ++ toString (h / 100) ++ "." ++ pad2 (h % 100)

/-- An argument of `Fprintf`. -/
inductive Arg where
  | int (i : Int)
  | float (v : ℚ)

/-- The part of `fmt.Fprintf` that the export uses: the verbs `%d` and `%.2f`,
every other character of the format copied as it is. -/
def sprintf : List Char → List Arg → String
  | [], _ => ""
  | '%' :: 'd' :: cs, Arg.int i :: args => toString i ++ sprintf cs args
  | '%' :: '.' :: '2' :: 'f' :: cs, Arg.float v :: args => fmtF2 v ++ sprintf cs args
  | c :: cs, args => String.singleton c ++ sprintf cs args

/-- The line `fmt.Fprintf(file3, "%d\t %.2f\n", k, p.SeqsAndRTTS[k])`. -/
def exportLine (k : Int) (v : ℚ) : String :=
  sprintf "%d\t %.2f\n".toList [Arg.int k, Arg.float v]

/-- The pairs `(k, p.SeqsAndRTTS[k])` in the order of the last `for` loop. -/
def exportRows (SeqsAndRTTS : List (Int × ℚ)) : List (Int × ℚ) :=
  (sortInts (keysOf SeqsAndRTTS)).map (fun k => (k, valueAt SeqsAndRTTS k))

/-- The content of `Sequence_RTTs.txt` once `os.Create` has succeeded, line by
line. -/
def exportFile (SeqsAndRTTS : List (Int × ℚ)) : List String :=
  (exportRows SeqsAndRTTS).map (fun row => exportLine row.1 row.2)

/-- The function `ping` of Delay_Trains2.go from the loop on: the final state of
the loop and, once the loop has been left through a `break`, the statistics
block and the exported file.  While the loop is still waiting in `select`, and
after the panic of a division by a zero train size, no statistics are printed
and no file is written.  `created` tells whether `os.Create` succeeded
(`log.Fatal` otherwise, after the statistics, and nothing is written). -/
def ping (hostname : String) (count trainS : Int) (events : List Event)
    (SeqsAndRTTS : List (Int × ℚ)) (created : Bool) :
    State × Option Stats × Option (List String) :=
  let s := loop hostname count trainS events (init trainS)
  if s.status = Status.running ∨ s.status = Status.panicked then
    (s, none, none)
  else
    (s, summarize s.results, if created then some (exportFile SeqsAndRTTS) else none)

end DelayTrains2

/-! # Theorems -/

/-! ## The samples: rounding to `float32` -/

theorem log2_eq (x : ℚ) (e : ℤ) (h1 : (2 : ℚ) ^ e ≤ x) (h2 : x < (2 : ℚ) ^ (e + 1)) :
    Int.log 2 x = e := by
  have hx : 0 < x := lt_of_lt_of_le (zpow_pos (by norm_num) e) h1
  apply le_antisymm
  · have := (Int.lt_zpow_iff_log_lt (b := 2) (by norm_num) hx (x := e + 1)).mp (by exact_mod_cast h2)
    omega
  · exact (Int.zpow_le_iff_le_log (b := 2) (by norm_num) hx).mp (by exact_mod_cast h1)

theorem roundHalfEven_abs_sub_le (y : ℚ) : |(roundHalfEven y : ℚ) - y| ≤ 1 / 2 := by
  have h1 : (⌊y⌋ : ℚ) ≤ y := Int.floor_le y
  have h2 : y < ⌊y⌋ + 1 := Int.lt_floor_add_one y
  unfold roundHalfEven
  simp only
  split_ifs with ha hb hc
  · rw [abs_le]; constructor <;> linarith
  · rw [abs_le]; push_cast; constructor <;> linarith
  · rw [abs_le]; constructor <;> linarith
  · rw [abs_le]; push_cast; constructor <;> linarith

theorem roundHalfEven_of_near (y : ℚ) (m : ℤ) (h : |y - m| < 1 / 2) : roundHalfEven y = m := by
  rw [abs_lt] at h
  obtain ⟨hl, hr⟩ := h
  unfold roundHalfEven
  simp only
  by_cases hge : (m : ℚ) ≤ y
  · have hf : ⌊y⌋ = m := Int.floor_eq_iff.mpr ⟨hge, by linarith⟩
    rw [hf, if_pos (by linarith)]
  · have hf : ⌊y⌋ = m - 1 := Int.floor_eq_iff.mpr ⟨by push_cast; linarith, by push_cast; linarith⟩
    rw [hf, if_neg (by push_cast; linarith), if_pos (by push_cast; linarith)]
    ring

theorem roundHalfEven_tie (y : ℚ) (m : ℤ) (h : y = m + 1 / 2) :
    roundHalfEven y = if m % 2 = 0 then m else m + 1 := by
  have hf : ⌊y⌋ = m := Int.floor_eq_iff.mpr ⟨by linarith, by linarith⟩
  unfold roundHalfEven
  simp only
  rw [hf, if_neg (by linarith), if_neg (by linarith)]

theorem roundF32_eq (x : ℚ) (e m : ℤ) (h1 : (2 : ℚ) ^ e ≤ |x|) (h2 : |x| < (2 : ℚ) ^ (e + 1))
    (hm : roundHalfEven (x / 2 ^ (e - 23)) = m) : roundF32 x = m * 2 ^ (e - 23) := by
  have hx : x ≠ 0 := by
    intro h0
    rw [h0, abs_zero] at h1
    exact absurd h1 (not_le.mpr (zpow_pos (by norm_num) e))
  simp only [roundF32, hx, if_false, log2_eq |x| e h1 h2, hm]

theorem roundF32_abs_sub_le (x : ℚ) : |roundF32 x - x| ≤ |x| / 2 ^ 24 := by
  by_cases hx : x = 0
  · simp [roundF32, hx]
  · have hpos : 0 < |x| := abs_pos.mpr hx
    have hlog : (2 : ℚ) ^ Int.log 2 |x| ≤ |x| := by
      simpa using Int.zpow_log_le_self (b := 2) (by norm_num) hpos
    simp only [roundF32, hx, if_false]
    set u : ℤ := Int.log 2 |x| - 23 with hu
    have hu0 : (0 : ℚ) < 2 ^ u := zpow_pos (by norm_num) u
    have hr := roundHalfEven_abs_sub_le (x / 2 ^ u)
    have heq : (roundHalfEven (x / 2 ^ u) : ℚ) * 2 ^ u - x
        = ((roundHalfEven (x / 2 ^ u) : ℚ) - x / 2 ^ u) * 2 ^ u := by
      field_simp
    rw [heq, abs_mul, abs_of_pos hu0]
    have h24 : (2 : ℚ) ^ u * 2 ^ (24 : ℕ) = 2 * 2 ^ Int.log 2 |x| := by
      rw [hu, ← zpow_natCast, ← zpow_add₀ (by norm_num), ← zpow_one_add₀ (by norm_num)]
      congr 1
      push_cast
      ring
    rw [le_div_iff₀ (by positivity)]
    calc |(roundHalfEven (x / 2 ^ u) : ℚ) - x / 2 ^ u| * 2 ^ u * 2 ^ 24
        = |(roundHalfEven (x / 2 ^ u) : ℚ) - x / 2 ^ u| * (2 ^ u * 2 ^ (24 : ℕ)) := by ring
      _ = |(roundHalfEven (x / 2 ^ u) : ℚ) - x / 2 ^ u| * (2 * 2 ^ Int.log 2 |x|) := by rw [h24]
      _ ≤ 1 / 2 * (2 * 2 ^ Int.log 2 |x|) := by
          apply mul_le_mul_of_nonneg_right hr
          positivity
      _ = 2 ^ Int.log 2 |x| := by ring
      _ ≤ |x| := hlog

theorem rttMs_abs_sub_le (res : response) :
    |rttMs res - (res.rtt : ℚ) / 1000000| ≤ |(res.rtt : ℚ) / 1000000| / 2 ^ 22 := by
  set r : ℚ := (res.rtt : ℚ) with hr
  have ha := roundF32_abs_sub_le r
  have hb := roundF32_abs_sub_le (roundF32 r / 1000000)
  have hA : |roundF32 r| ≤ |r| + |r| / 2 ^ 24 := by
    have := abs_sub_abs_le_abs_sub (roundF32 r) r
    linarith
  have hsplit : rttMs res - r / 1000000
      = (roundF32 (roundF32 r / 1000000) - roundF32 r / 1000000) + (roundF32 r - r) / 1000000 := by
    simp only [rttMs, ← hr]
    ring
  rw [hsplit]
  have h1 : |(roundF32 r - r) / 1000000| ≤ |r| / 2 ^ 24 / 1000000 := by
    rw [abs_div, abs_of_pos (by norm_num : (0 : ℚ) < 1000000)]
    exact div_le_div_of_nonneg_right ha (by norm_num)
  have h2 : |roundF32 r / 1000000| ≤ (|r| + |r| / 2 ^ 24) / 1000000 := by
    rw [abs_div, abs_of_pos (by norm_num : (0 : ℚ) < 1000000)]
    exact div_le_div_of_nonneg_right hA (by norm_num)
  have h3 : |roundF32 (roundF32 r / 1000000) - roundF32 r / 1000000|
      ≤ (|r| + |r| / 2 ^ 24) / 1000000 / 2 ^ 24 :=
    le_trans hb (div_le_div_of_nonneg_right h2 (by positivity))
  have hr0 : 0 ≤ |r| := abs_nonneg r
  calc |roundF32 (roundF32 r / 1000000) - roundF32 r / 1000000 + (roundF32 r - r) / 1000000|
      ≤ |roundF32 (roundF32 r / 1000000) - roundF32 r / 1000000| + |(roundF32 r - r) / 1000000| :=
        abs_add _ _
    _ ≤ (|r| + |r| / 2 ^ 24) / 1000000 / 2 ^ 24 + |r| / 2 ^ 24 / 1000000 := add_le_add h3 h1
    _ ≤ |r / 1000000| / 2 ^ 22 := by
        rw [abs_div, abs_of_pos (by norm_num : (0 : ℚ) < 1000000)]
        have : (|r| + |r| / 2 ^ 24) / 1000000 / 2 ^ 24 + |r| / 2 ^ 24 / 1000000
            = |r| * ((1 + 1 / 2 ^ 24) / 1000000 / 2 ^ 24 + 1 / 2 ^ 24 / 1000000) := by ring
        rw [this]
        have h4 : |r| / 1000000 / 2 ^ 22 = |r| * (1 / 1000000 / 2 ^ 22) := by ring
        rw [h4]
        apply mul_le_mul_of_nonneg_left _ hr0
        norm_num

theorem roundF32_exact (x : ℚ) (e m : ℤ) (h1 : (2 : ℚ) ^ e ≤ |x|) (h2 : |x| < (2 : ℚ) ^ (e + 1))
    (hm : x / 2 ^ (e - 23) = m) : roundF32 x = x := by
  have h0 : (2 : ℚ) ^ (e - 23) ≠ 0 := (zpow_pos (by norm_num) _).ne'
  rw [roundF32_eq x e m h1 h2 (roundHalfEven_of_near _ m (by rw [hm]; norm_num)), ← hm]
  field_simp

theorem rttMs_5ms (addr : String) (seqn : Int) : rttMs ⟨addr, 5000000, seqn⟩ = 5 := by
  have h1 : roundF32 5000000 = 5000000 :=
    roundF32_exact 5000000 22 10000000 (by norm_num) (by norm_num) (by norm_num)
  have h2 : roundF32 5 = 5 :=
    roundF32_exact 5 2 10485760 (by norm_num) (by norm_num) (by norm_num)
  simp only [rttMs, Int.cast_ofNat, h1]
  norm_num [h2]

theorem rttMs_1234567 (addr : String) (seqn : Int) :
    rttMs ⟨addr, 1234567, seqn⟩ = 10356299 / 8388608 := by
  have h1 : roundF32 1234567 = 1234567 :=
    roundF32_exact 1234567 20 9876536 (by norm_num) (by norm_num) (by norm_num)
  have h2 : roundF32 (1234567 / 1000000) = 10356299 / 8388608 := by
    rw [roundF32_eq (1234567 / 1000000) 0 10356299 (by norm_num [abs_of_pos])
      (by norm_num [abs_of_pos])
      (roundHalfEven_of_near _ _ (by norm_num [abs_lt]))]
    norm_num
  simp only [rttMs, Int.cast_ofNat, h1, h2]

theorem rttMs_16777216 (addr : String) (seqn : Int) :
    rttMs ⟨addr, 16777216, seqn⟩ = 8796093 / 524288 := by
  have h1 : roundF32 16777216 = 16777216 :=
    roundF32_exact 16777216 24 8388608 (by norm_num) (by norm_num) (by norm_num)
  have h2 : roundF32 (16777216 / 1000000) = 8796093 / 524288 := by
    rw [roundF32_eq (16777216 / 1000000) 4 8796093 (by norm_num [abs_of_pos])
      (by norm_num [abs_of_pos])
      (roundHalfEven_of_near _ _ (by norm_num [abs_lt]))]
    norm_num
  simp only [rttMs, Int.cast_ofNat, h1, h2]

theorem rttMs_16777217 (addr : String) (seqn : Int) :
    rttMs ⟨addr, 16777217, seqn⟩ = 8796093 / 524288 := by
  have h1 : roundF32 16777217 = 16777216 := by
    rw [roundF32_eq 16777217 24 8388608 (by norm_num) (by norm_num)
      ((roundHalfEven_tie _ 8388608 (by norm_num)).trans (by decide))]
    norm_num
  have h2 : roundF32 (16777216 / 1000000) = 8796093 / 524288 := by
    rw [roundF32_eq (16777216 / 1000000) 4 8796093 (by norm_num [abs_of_pos])
      (by norm_num [abs_of_pos])
      (roundHalfEven_of_near _ _ (by norm_num [abs_lt]))]
    norm_num
  simp only [rttMs, Int.cast_ofNat, h1, h2]

/-! ## The statistics block -/

theorem foldl_statsStep_sum (l : List ℚ) (acc : ℚ × ℚ × ℚ) :
    (l.foldl statsStep acc).2.2 = acc.2.2 + l.sum := by
  induction l generalizing acc with
  | nil => simp
  | cons x xs ih => simp [List.foldl_cons, ih, statsStep, add_assoc]

theorem foldl_sqDev (avg : ℚ) (l : List ℚ) (a : ℚ) :
    l.foldl (fun mdev val => mdev + (val - avg) * (val - avg)) a
      = a + (l.map (fun val => (val - avg) ^ 2)).sum := by
  induction l generalizing a with
  | nil => simp
  | cons x xs ih => simp [List.foldl_cons, ih, add_assoc, sq]

theorem foldl_statsStep_min (l : List ℚ) (acc : ℚ × ℚ × ℚ) :
    ((l.foldl statsStep acc).1 = acc.1 ∨ (l.foldl statsStep acc).1 ∈ l) ∧
      (l.foldl statsStep acc).1 ≤ acc.1 ∧ ∀ r ∈ l, (l.foldl statsStep acc).1 ≤ r := by
  induction l generalizing acc with
  | nil => simp
  | cons x xs ih =>
    obtain ⟨h1, h2, h3⟩ := ih (statsStep acc x)
    simp only [List.foldl_cons, List.mem_cons, forall_eq_or_imp]
    have hx : (statsStep acc x).1 ≤ x ∧ (statsStep acc x).1 ≤ acc.1 ∧
        ((statsStep acc x).1 = acc.1 ∨ (statsStep acc x).1 = x) := by
      simp only [statsStep]
      split_ifs with h
      · exact ⟨le_refl _, le_of_lt h, Or.inr rfl⟩
      · exact ⟨not_lt.mp h, le_refl _, Or.inl rfl⟩
    refine ⟨?_, le_trans h2 hx.2.1, le_trans h2 hx.1, h3⟩
    rcases h1 with h1 | h1
    · rcases hx.2.2 with h4 | h4
      · exact Or.inl (h1.trans h4)
      · exact Or.inr (Or.inl (h1.trans h4))
    · exact Or.inr (Or.inr h1)

theorem foldl_statsStep_max (l : List ℚ) (acc : ℚ × ℚ × ℚ) :
    ((l.foldl statsStep acc).2.1 = acc.2.1 ∨ (l.foldl statsStep acc).2.1 ∈ l) ∧
      acc.2.1 ≤ (l.foldl statsStep acc).2.1 ∧ ∀ r ∈ l, r ≤ (l.foldl statsStep acc).2.1 := by
  induction l generalizing acc with
  | nil => simp
  | cons x xs ih =>
    obtain ⟨h1, h2, h3⟩ := ih (statsStep acc x)
    simp only [List.foldl_cons, List.mem_cons, forall_eq_or_imp]
    have hx : x ≤ (statsStep acc x).2.1 ∧ acc.2.1 ≤ (statsStep acc x).2.1 ∧
        ((statsStep acc x).2.1 = acc.2.1 ∨ (statsStep acc x).2.1 = x) := by
      simp only [statsStep]
      split_ifs with h
      · exact ⟨le_refl _, le_of_lt h, Or.inr rfl⟩
      · exact ⟨not_lt.mp h, le_refl _, Or.inl rfl⟩
    refine ⟨?_, le_trans hx.2.1 h2, le_trans hx.1 h2, h3⟩
    rcases h1 with h1 | h1
    · rcases hx.2.2 with h4 | h4
      · exact Or.inl (h1.trans h4)
      · exact Or.inr (Or.inl (h1.trans h4))
    · exact Or.inr (Or.inr h1)

theorem summarize_eq_some (results : List ℚ) (h : results ≠ []) :
    summarize results = some
      { min := (results.foldl statsStep (1000000, -1, 0)).1,
        max := (results.foldl statsStep (1000000, -1, 0)).2.1,
        avg := results.sum / results.length,
        mdev := (results.map (fun r => (r - results.sum / results.length) ^ 2)).sum
          / results.length } := by
  have hlen : (0 : ℚ) < (results.length : ℚ) := by
    have : 0 < results.length := List.length_pos.mpr h
    exact_mod_cast this
  simp only [summarize, gt_iff_lt, hlen, if_true, foldl_statsStep_sum, foldl_sqDev, zero_add]

/-- Supporting fact for C1: when some sample is at most 1000000 ms and some
sample is at least -1 ms, the reported `min` and `max` are the smallest and the
largest sample. -/
theorem summarize_min_max_in_range (results : List ℚ)
    (hlo : ∃ r ∈ results, r ≤ 1000000) (hhi : ∃ r ∈ results, -1 ≤ r) :
    ∃ s, summarize results = some s ∧
      s.min ∈ results ∧ (∀ r ∈ results, s.min ≤ r) ∧
      s.max ∈ results ∧ (∀ r ∈ results, r ≤ s.max) := by
  have hne : results ≠ [] := by
    obtain ⟨r, hr, _⟩ := hlo
    exact List.ne_nil_of_mem hr
  refine ⟨_, summarize_eq_some results hne, ?_, ?_, ?_, ?_⟩
  · obtain ⟨h1, _, h3⟩ := foldl_statsStep_min results (1000000, -1, 0)
    rcases h1 with h1 | h1
    · obtain ⟨r, hr, hle⟩ := hlo
      have h4 := h3 r hr
      have : r = (results.foldl statsStep (1000000, -1, 0)).1 := by
        apply le_antisymm _ h4
        rw [h1]; exact hle
      exact this ▸ hr
    · exact h1
  · exact (foldl_statsStep_min results (1000000, -1, 0)).2.2
  · obtain ⟨h1, _, h3⟩ := foldl_statsStep_max results (1000000, -1, 0)
    rcases h1 with h1 | h1
    · obtain ⟨r, hr, hle⟩ := hhi
      have h4 := h3 r hr
      have : r = (results.foldl statsStep (1000000, -1, 0)).2.1 := by
        apply le_antisymm h4
        rw [h1]; exact hle
      exact this ▸ hr
    · exact h1
  · exact (foldl_statsStep_max results (1000000, -1, 0)).2.2

/-- C1 (the code at the failing input): for the single sample 2000000 ms the
statistics block reports `min = 1000000`, the initial value of `min`, although
the smallest sample is 2000000. -/
theorem summarize_min_sentinel :
    summarize [2000000] = some { min := 1000000, max := 2000000, avg := 2000000, mdev := 0 } := by
  simp [summarize, statsStep]
  norm_num

/-- C2: for a non-empty list of samples, in exact arithmetic, the statistics
block reports `avg = (Σ r_i) / N` and `mdev = (Σ (r_i - avg)²) / N`, the
population variance, with no square root. -/
theorem summarize_avg_mdev (results : List ℚ) (h : results ≠ []) :
    ∃ s, summarize results = some s ∧
      s.avg = results.sum / results.length ∧
      s.mdev = (results.map (fun r => (r - results.sum / results.length) ^ 2)).sum
        / results.length :=
  ⟨_, summarize_eq_some results h, rfl, rfl⟩

theorem summarize_avg_mdev_witness :
    ([10, 20, 30] : List ℚ) ≠ [] ∧
    ∃ s, summarize [10, 20, 30] = some s ∧
      s.avg = ([10, 20, 30] : List ℚ).sum / ([10, 20, 30] : List ℚ).length ∧
      s.mdev = (([10, 20, 30] : List ℚ).map
        (fun r => (r - ([10, 20, 30] : List ℚ).sum / ([10, 20, 30] : List ℚ).length) ^ 2)).sum
        / ([10, 20, 30] : List ℚ).length :=
  ⟨by simp, summarize_avg_mdev [10, 20, 30] (by simp)⟩


namespace PingGo

/-! ## ping.go: the reply slots -/

theorem hasKey_iff (m : List (String × Option response)) (host : String) :
    hasKey m host = true ↔ host ∈ m.map Prod.fst := by
  simp only [hasKey, List.any_eq_true, decide_eq_true_eq, List.mem_map]

theorem setSlot_keys (m : List (String × Option response)) (host : String)
    (v : Option response) : (setSlot m host v).map Prod.fst = m.map Prod.fst := by
  induction m with
  | nil => rfl
  | cons e es ih =>
    simp only [setSlot, List.map_cons] at ih ⊢
    rw [ih]
    split_ifs <;> rfl

theorem setSlot_absent (m : List (String × Option response)) (host : String)
    (v : Option response) (h : host ∉ m.map Prod.fst) : setSlot m host v = m := by
  induction m with
  | nil => rfl
  | cons e es ih =>
    simp only [List.map_cons, List.mem_cons, not_or] at h
    simp only [setSlot, List.map_cons] at ih ⊢
    rw [ih h.2, if_neg (fun hh => h.1 hh.symm)]

theorem lookup_setSlot_self (m : List (String × Option response)) (host : String)
    (v : Option response) (h : host ∈ m.map Prod.fst) :
    (setSlot m host v).lookup host = some v := by
  induction m with
  | nil => simp at h
  | cons e es ih =>
    obtain ⟨k, x⟩ := e
    simp only [List.map_cons, List.mem_cons] at h
    simp only [setSlot, List.map_cons] at ih ⊢
    by_cases hk : k = host
    · subst hk
      simp [List.lookup_cons]
    · have hne : host ≠ k := fun hh => hk hh.symm
      have h2 := ih (h.resolve_left hne)
      have hb : (host == k) = false := by simpa using hne
      simp [List.lookup_cons, hk, hb, h2]

theorem lookup_setSlot_other (m : List (String × Option response)) (host other : String)
    (v : Option response) (h : other ≠ host) :
    (setSlot m host v).lookup other = m.lookup other := by
  induction m with
  | nil => rfl
  | cons e es ih =>
    obtain ⟨k, x⟩ := e
    simp only [setSlot, List.map_cons] at ih ⊢
    by_cases hk : k = host
    · subst hk
      have hb : (other == k) = false := by simpa using h
      simp [List.lookup_cons, hb, ih]
    · simp only [if_neg hk, List.lookup_cons, ih]

theorem onRecv_sent_keys (s : State) (res : response) :
    (onRecv s res).sent = s.sent ∧
    (onRecv s res).replies.map Prod.fst = s.replies.map Prod.fst := by
  simp only [onRecv]
  split_ifs
  · exact ⟨rfl, setSlot_keys _ _ _⟩
  · exact ⟨rfl, rfl⟩

/-- C8 (as stated, refuted): the sample appended for a reply of 1234567 ns is the
`float32` number 10356299/8388608, which is not its RTT in milliseconds,
1234567/1000000. -/
theorem onRecv_sample_rounded :
    (onRecv (init "10.0.0.1") ⟨"10.0.0.1", 1234567, 0⟩).results = [10356299 / 8388608] ∧
    (10356299 / 8388608 : ℚ) ≠ 1234567 / 1000000 := by
  refine ⟨?_, by norm_num⟩
  simp [onRecv, init, hasKey, rttMs_1234567]

/-- C8 (amended): a reply event adds one to `received` and appends to the samples
the `float32` number `float32(rtt)/float32(time.Millisecond)`, which is the RTT
in milliseconds up to a relative error of `2^-22`; it leaves `sent` and the key
set of `replies` as they were; when the replying address is a key, that slot
becomes the reply and every other slot is unchanged; when it is not a key, the
map is unchanged. -/
theorem onRecv_frame (s : State) (res : response) :
    (onRecv s res).received = s.received + 1 ∧
    (onRecv s res).results
      = s.results ++ [roundF32 (roundF32 (res.rtt : ℚ) / 1000000)] ∧
    |roundF32 (roundF32 (res.rtt : ℚ) / 1000000) - (res.rtt : ℚ) / 1000000|
      ≤ |(res.rtt : ℚ) / 1000000| / 2 ^ 22 ∧
    (onRecv s res).sent = s.sent ∧
    (onRecv s res).replies.map Prod.fst = s.replies.map Prod.fst ∧
    (res.addr ∈ s.replies.map Prod.fst →
      (onRecv s res).replies.lookup res.addr = some (some res)) ∧
    (∀ host, host ≠ res.addr →
      (onRecv s res).replies.lookup host = s.replies.lookup host) ∧
    (res.addr ∉ s.replies.map Prod.fst → (onRecv s res).replies = s.replies) ∧
    (∀ count es, s.sent < count →
      loop count (Event.recv res :: es) s = loop count es (onRecv s res)) := by
  have hbound := rttMs_abs_sub_le res
  rw [rttMs] at hbound
  by_cases hk : hasKey s.replies res.addr = true
  · have hmem := (hasKey_iff _ _).mp hk
    simp only [onRecv, hk, if_true]
    refine ⟨trivial, rfl, hbound, trivial, setSlot_keys _ _ _,
      fun _ => lookup_setSlot_self _ _ _ hmem,
      fun host hne => lookup_setSlot_other _ _ _ _ hne, fun h => absurd hmem h, ?_⟩
    intro count es hlt
    simp [loop, hlt, onRecv, hk]
  · have hmem : res.addr ∉ s.replies.map Prod.fst := fun h => hk ((hasKey_iff _ _).mpr h)
    have hk2 : hasKey s.replies res.addr = false := by simpa using hk
    simp only [onRecv, hk2, Bool.false_eq_true, if_false]
    refine ⟨trivial, rfl, hbound, trivial, trivial, fun h => absurd h hmem, fun _ _ => trivial,
      fun _ => trivial, ?_⟩
    intro count es hlt
    simp [loop, hlt, onRecv, hk]

theorem onRecv_frame_witness :
    (onRecv (init "10.0.0.1") ⟨"10.0.0.1", 5000000, 0⟩).replies.lookup "10.0.0.1"
      = some (some ⟨"10.0.0.1", 5000000, 0⟩) ∧
    (onRecv (init "10.0.0.1") ⟨"10.0.0.9", 5000000, 0⟩).replies = (init "10.0.0.1").replies ∧
    loop 2 [Event.recv ⟨"10.0.0.1", 5000000, 0⟩] (init "10.0.0.1")
      = loop 2 [] (onRecv (init "10.0.0.1") ⟨"10.0.0.1", 5000000, 0⟩) :=
  ⟨(onRecv_frame (init "10.0.0.1") ⟨"10.0.0.1", 5000000, 0⟩).2.2.2.2.2.1 (by decide),
   (onRecv_frame (init "10.0.0.1") ⟨"10.0.0.9", 5000000, 0⟩).2.2.2.2.2.2.2.1 (by decide),
   (onRecv_frame (init "10.0.0.1") ⟨"10.0.0.1", 5000000, 0⟩).2.2.2.2.2.2.2.2 2 [] (by decide)⟩

end PingGo

namespace PingGo

/-! ## ping.go: the idle handler -/

theorem foldl_idleStep (size : Int) (l : List (String × Option response)) (s : State) :
    (l.foldl (idleStep size) s).sent = s.sent + l.length ∧
    (l.foldl (idleStep size) s).out = s.out ++ l.map (idleLine size) ∧
    (l.foldl (idleStep size) s).received = s.received ∧
    (l.foldl (idleStep size) s).results = s.results ∧
    (l.foldl (idleStep size) s).status = s.status ∧
    (l.foldl (idleStep size) s).replies
      = s.replies.map (fun e => if e.1 ∈ l.map Prod.fst then (e.1, none) else e) := by
  induction l generalizing s with
  | nil => simp
  | cons x xs ih =>
    obtain ⟨h1, h2, h3, h4, h5, h6⟩ := ih (idleStep size s x)
    have hs : (idleStep size s x).sent = s.sent + 1 ∧
        (idleStep size s x).out = s.out ++ [idleLine size x] ∧
        (idleStep size s x).received = s.received ∧
        (idleStep size s x).results = s.results ∧
        (idleStep size s x).status = s.status ∧
        (idleStep size s x).replies = setSlot s.replies x.1 none := by
      obtain ⟨k, r⟩ := x
      cases r <;> simp [idleStep, idleLine]
    obtain ⟨g1, g2, g3, g4, g5, g6⟩ := hs
    simp only [List.foldl_cons]
    refine ⟨?_, ?_, h3.trans g3, h4.trans g4, h5.trans g5, ?_⟩
    · rw [h1, g1, List.length_cons]; push_cast; ring
    · rw [h2, g2]; simp
    · rw [h6, g6, setSlot, List.map_map]
      apply List.map_congr_left
      intro e _
      simp only [Function.comp, List.map_cons, List.mem_cons]
      by_cases hx : e.1 = x.1
      · simp [hx]
      · rw [if_neg hx]
        simp only [hx, false_or]

theorem onIdle_eq (size : Int) (s : State) :
    (onIdle size s).sent = s.sent + s.replies.length ∧
    (onIdle size s).out = s.out ++ s.replies.map (idleLine size) ∧
    (onIdle size s).received = s.received ∧
    (onIdle size s).results = s.results ∧
    (onIdle size s).status = s.status ∧
    (onIdle size s).replies = s.replies.map (fun e => (e.1, none)) := by
  obtain ⟨h1, h2, h3, h4, h5, h6⟩ := foldl_idleStep size s.replies s
  refine ⟨h1, h2, h3, h4, h5, ?_⟩
  rw [onIdle, h6]
  apply List.map_congr_left
  intro e he
  have : e.1 ∈ s.replies.map Prod.fst := List.mem_map_of_mem _ he
  simp [this]

theorem mem_idleLines_unreachable (size : Int) (m : List (String × Option response))
    (host : String) :
    Line.unreachable host ∈ m.map (idleLine size) ↔ (host, none) ∈ m := by
  simp only [List.mem_map]
  constructor
  · rintro ⟨⟨k, r⟩, he, hl⟩
    cases r with
    | none =>
      simp only [idleLine, Line.unreachable.injEq] at hl
      exact hl ▸ he
    | some r => simp [idleLine] at hl
  · intro h
    exact ⟨_, h, rfl⟩

theorem mem_idleLines_reply (size : Int) (m : List (String × Option response))
    (host : String) (r : response) (h : (host, some r) ∈ m) :
    Line.reply (size + 56) host (r.seqn + 1) 128 (rttMs r) ∈ m.map (idleLine size) :=
  List.mem_map.mpr ⟨_, h, rfl⟩

end PingGo

namespace PingGo

/-- C9: with `sent < count`, an idle event is handled by the `range` loop, which
prints one line per target ("unreachable" exactly for the targets whose slot is
empty, the reply line for the others), adds one to `sent` per target, and leaves
every slot empty under the same keys.  For `count = 2` and the events reply
(5 ms), idle, idle the run is over with one reply line, one "unreachable" line,
`sent = 2` and `received = 1`. -/
theorem onIdle_cycle (count size : Int) (s : State) (es : List Event) (h : s.sent < count) :
    loop count (Event.idle size :: es) s = loop count es (onIdle size s) ∧
    (onIdle size s).out = s.out ++ s.replies.map (idleLine size) ∧
    (∀ host, Line.unreachable host ∈ s.replies.map (idleLine size) ↔ (host, none) ∈ s.replies) ∧
    (∀ host r, (host, some r) ∈ s.replies →
      Line.reply (size + 56) host (r.seqn + 1) 128 (rttMs r) ∈ s.replies.map (idleLine size)) ∧
    (onIdle size s).sent = s.sent + s.replies.length ∧
    (onIdle size s).replies = s.replies.map (fun e => (e.1, none)) ∧
    (onIdle size s).received = s.received ∧
    (onIdle size s).results = s.results ∧
    (∀ (ra : String) (seqn size1 size2 : Int),
      loop 2 [Event.recv ⟨ra, 5000000, seqn⟩, Event.idle size1, Event.idle size2] (init ra)
        = { sent := 2, received := 1, results := [5], replies := [(ra, none)],
            out := [Line.reply (size1 + 56) ra (seqn + 1) 128 5, Line.unreachable ra],
            status := Status.completed }) := by
  obtain ⟨h1, h2, h3, h4, _, h6⟩ := onIdle_eq size s
  refine ⟨by simp [loop, h], h2, mem_idleLines_unreachable size _, mem_idleLines_reply size _,
    h1, h6, h3, h4, ?_⟩
  intro ra seqn size1 size2
  simp [loop, init, onRecv, onIdle, idleStep, hasKey, setSlot, rttMs_5ms]

theorem onIdle_cycle_witness :
    (init "10.0.0.1").sent < 2 ∧
    (onIdle 8 (init "10.0.0.1")).out = [Line.unreachable "10.0.0.1"] ∧
    (onIdle 8 (init "10.0.0.1")).sent = 1 ∧
    Line.unreachable "10.0.0.1" ∈ (init "10.0.0.1").replies.map (idleLine 8) :=
  have h := onIdle_cycle 2 8 (init "10.0.0.1") [] (by decide)
  ⟨by decide, h.2.1, h.2.2.2.2.1, (h.2.2.1 "10.0.0.1").mpr (by decide)⟩

/-! ## ping.go: the loop -/

theorem onRecv_length (s : State) (res : response) :
    (onRecv s res).replies.length = s.replies.length := by
  have h := (onRecv_sent_keys s res).2
  have h2 := congrArg List.length h
  simpa using h2

theorem onRecv_status (s : State) (res : response) : (onRecv s res).status = s.status := by
  simp only [onRecv]
  split_ifs <;> rfl

theorem onIdle_single (size : Int) (s : State) (h : s.replies.length = 1) :
    (onIdle size s).sent = s.sent + 1 ∧ (onIdle size s).replies.length = 1 ∧
      (onIdle size s).status = s.status := by
  obtain ⟨h1, _, _, _, h5, h6⟩ := onIdle_eq size s
  refine ⟨by rw [h1, h]; rfl, by rw [h6, List.length_map, h], h5⟩

theorem loop_single_target (count : Int) (events : List Event) (s : State)
    (hlen : s.replies.length = 1) (hle : s.sent ≤ count) (hrun : s.status = Status.running) :
    (loop count events s).sent ≤ count ∧
    ((loop count events s).status = Status.completed → (loop count events s).sent = count) ∧
    ((∀ e ∈ events, isStop e = false) →
      count - s.sent ≤ ((events.filter isIdle).length : Int) →
      (loop count events s).status = Status.completed) := by
  induction events generalizing s with
  | nil =>
    by_cases hlt : s.sent < count
    · simp only [loop, hlt, if_true]
      refine ⟨hle, fun hc => ?_, fun _ hi => ?_⟩
      · rw [hrun] at hc; cases hc
      · simp at hi; omega
    · simp only [loop, hlt, if_false]
      exact ⟨hle, fun _ => le_antisymm hle (not_lt.mp hlt), fun _ _ => trivial⟩
  | cons e es ih =>
    by_cases hlt : s.sent < count
    · cases e with
      | interrupt =>
        simp only [loop, hlt, if_true]
        refine ⟨hle, (fun hc => by cases hc), fun hs => ?_⟩
        have := hs Event.interrupt (List.mem_cons_self _ _)
        simp [isStop] at this
      | recv res =>
        simp only [loop, hlt, if_true]
        have hsent : (onRecv s res).sent = s.sent := (onRecv_sent_keys s res).1
        obtain ⟨i1, i2, i3⟩ := ih (onRecv s res) ((onRecv_length s res).trans hlen)
          (hsent ▸ hle) ((onRecv_status s res).trans hrun)
        refine ⟨i1, i2, fun hs hi => i3 (fun e he => hs e (List.mem_cons_of_mem _ he)) ?_⟩
        rw [hsent]
        simpa [List.filter_cons, isIdle] using hi
      | idle size =>
        simp only [loop, hlt, if_true]
        obtain ⟨j1, j2, j3⟩ := onIdle_single size s hlen
        obtain ⟨i1, i2, i3⟩ := ih (onIdle size s) j2 (by rw [j1]; omega) (j3.trans hrun)
        refine ⟨i1, i2, fun hs hi => i3 (fun e he => hs e (List.mem_cons_of_mem _ he)) ?_⟩
        rw [j1]
        simp only [List.filter_cons, isIdle, if_true, List.length_cons] at hi
        push_cast at hi
        omega
      | done err =>
        simp only [loop, hlt, if_true]
        refine ⟨?_, (fun hc => by cases hc), fun hs => ?_⟩
        · cases err <;> exact hle
        · have := hs (Event.done err) (List.mem_cons_self _ _)
          simp [isStop] at this
    · simp only [loop, hlt, if_false]
      exact ⟨hle, fun _ => le_antisymm hle (not_lt.mp hlt), fun _ _ => trivial⟩

/-- C3 (as stated, refuted): with `count = -1` the loop is left at once by the
policy with `sent = 0`, which is not `count` and exceeds it. -/
theorem loop_negative_count :
    (loop (-1) [] (init "10.0.0.1")).status = Status.completed ∧
    (loop (-1) [] (init "10.0.0.1")).sent = 0 ∧
    ¬ (loop (-1) [] (init "10.0.0.1")).sent ≤ -1 := by
  decide

/-- C3 (amended): for a single target and `count ≥ 0`, `sent` never exceeds
`count` after any prefix of the events, it equals `count` when the loop is left
by the policy, and the loop is left by the policy as soon as the events, free of
interrupt and completion, hold `count` idle events. -/
theorem loop_sent_eq_count (ra : String) (count : Int) (hc : 0 ≤ count)
    (events : List Event) :
    (∀ pre, pre <+: events → (loop count pre (init ra)).sent ≤ count) ∧
    ((loop count events (init ra)).status = Status.completed →
      (loop count events (init ra)).sent = count) ∧
    ((∀ e ∈ events, isStop e = false) → count ≤ ((events.filter isIdle).length : Int) →
      (loop count events (init ra)).status = Status.completed ∧
      (loop count events (init ra)).sent = count) := by
  have key := fun evs => loop_single_target count evs (init ra) rfl hc rfl
  refine ⟨fun pre _ => (key pre).1, (key events).2.1, fun hs hi => ?_⟩
  have hdone := (key events).2.2 hs (by simpa [init] using hi)
  exact ⟨hdone, (key events).2.1 hdone⟩

theorem loop_sent_eq_count_witness :
    (0 : Int) ≤ 2 ∧
    (loop 2 [Event.recv ⟨"10.0.0.1", 5000000, 0⟩, Event.idle 8, Event.idle 8]
      (init "10.0.0.1")).status = Status.completed ∧
    (loop 2 [Event.recv ⟨"10.0.0.1", 5000000, 0⟩, Event.idle 8, Event.idle 8]
      (init "10.0.0.1")).sent = 2 :=
  ⟨by decide,
   (loop_sent_eq_count "10.0.0.1" 2 (by decide)
      [Event.recv ⟨"10.0.0.1", 5000000, 0⟩, Event.idle 8, Event.idle 8]).2.2
      (by decide) (by decide)⟩

theorem loopA_interrupt_cut (count : Int) (pre post : List Event) (s : State) :
    loop count (pre ++ Event.interrupt :: post) s = loop count (pre ++ [Event.interrupt]) s := by
  induction pre generalizing s with
  | nil => simp [loop]
  | cons e es ih =>
    cases e <;> simp [loop, ih]

end PingGo

namespace DelayTrains2

/-! ## Delay_Trains2.go: the loop -/

theorem wrapInt64_of_fits (x : Int) (h1 : -2 ^ 63 ≤ x) (h2 : x < 2 ^ 63) : wrapInt64 x = x := by
  unfold wrapInt64
  omega

theorem onIdle_fields (hostname : String) (trainS : Int) (s : State) :
    (onIdle hostname trainS s).sent = wrapInt64 (s.sent + trainS) ∧
    (onIdle hostname trainS s).crec = 0 ∧
    (onIdle hostname trainS s).received = s.received ∧
    (onIdle hostname trainS s).results = s.results ∧
    (onIdle hostname trainS s).status = s.status := by
  by_cases h : s.crec = 0 <;> simp [onIdle, h]

/-- C4 (as stated, refuted): with `count = 10`, `trainS = 1`, no reply received
and `p.SentICMP = 10`, an idle event ends the run although `received / trainS`
is `0`, not `count`; and with `trainS = 2^62` the first idle event that does not
end the run leaves `sent = -2^63`, not `sent + trainS = 2^63`. -/
theorem idle_contradicts_claim :
    (loop "host" 10 1 [Event.idle 10] (init 1)).status = Status.completed ∧
    ¬ ((10 : Int).tdiv 1 ≥ 10 ∧ (init 1).received.tdiv 1 = 10) ∧
    (loop "host" 10 4611686018427387904 [Event.idle 0] (init 4611686018427387904)).status
      = Status.running ∧
    (loop "host" 10 4611686018427387904 [Event.idle 0] (init 4611686018427387904)).sent
      = -9223372036854775808 ∧
    (init 4611686018427387904).sent + 4611686018427387904 = 9223372036854775808 := by
  decide

/-- C4 (amended): for `trainS ≥ 1` and a running state, an idle event ends the
run exactly when `p.SentICMP / trainS ≥ count`; otherwise the run goes on with
the next event and `sent` is advanced by `trainS` as a 64-bit `int`: to
`sent + trainS` when that fits, to its wrap-around modulo `2^64` otherwise. -/
theorem idle_terminates_iff (hostname : String) (count trainS : Int) (ht : 1 ≤ trainS)
    (s : State) (hs : s.status = Status.running) (SentICMP : Int) (es : List Event) :
    ((loop hostname count trainS [Event.idle SentICMP] s).status ≠ Status.running ↔
      SentICMP.tdiv trainS ≥ count) ∧
    (SentICMP.tdiv trainS ≥ count →
      loop hostname count trainS (Event.idle SentICMP :: es) s
        = { s with out := s.out ++ [Line.enteredOnIdle], status := Status.completed }) ∧
    (¬ SentICMP.tdiv trainS ≥ count →
      loop hostname count trainS (Event.idle SentICMP :: es) s
        = loop hostname count trainS es (onIdle hostname trainS s) ∧
      (onIdle hostname trainS s).status = Status.running ∧
      (onIdle hostname trainS s).sent = wrapInt64 (s.sent + trainS) ∧
      (-2 ^ 63 ≤ s.sent → s.sent + trainS < 2 ^ 63 →
        (onIdle hostname trainS s).sent = s.sent + trainS)) := by
  have h0 : trainS ≠ 0 := by omega
  obtain ⟨f1, _, _, _, f5⟩ := onIdle_fields hostname trainS s
  refine ⟨?_, fun h => ?_, fun h => ⟨?_, f5.trans hs, f1, fun h1 h2 => ?_⟩⟩
  · by_cases h : SentICMP.tdiv trainS ≥ count
    · simp [loop, h0, h]
    · simp only [loop, h0, h, if_false, f5, hs]
      simp
  · simp [loop, h0, h]
  · simp [loop, h0, h]
  · rw [f1]
    exact wrapInt64_of_fits _ (by omega) h2

theorem idle_terminates_iff_witness :
    (loop "host" 10 1 [Event.idle 10] (init 1)).status ≠ Status.running ∧
    (loop "host" 10 1 [Event.idle 3] (init 1)).status = Status.running ∧
    (onIdle "host" 1 (init 1)).sent = 2 :=
  have h10 := idle_terminates_iff "host" 10 1 (by decide) (init 1) rfl 10 []
  have h3 := idle_terminates_iff "host" 10 1 (by decide) (init 1) rfl 3 []
  ⟨h10.1.mpr (by decide), by rw [(h3.2.2 (by decide)).1]; exact (h3.2.2 (by decide)).2.1,
    (h3.2.2 (by decide)).2.2.2 (by decide) (by decide)⟩

theorem onRecv_fields (s : State) (res : response) (size : Int) :
    (onRecv s res size).received = s.received + 1 ∧
    (onRecv s res size).crec = s.crec + 1 ∧
    (onRecv s res size).results = s.results ++ [rttMs res] ∧
    (onRecv s res size).sent = s.sent ∧
    (onRecv s res size).status = s.status :=
  ⟨rfl, rfl, rfl, rfl, rfl⟩

theorem loopB_interrupt_cut (hostname : String) (count trainS : Int) (pre post : List Event)
    (s : State) :
    loop hostname count trainS (pre ++ Event.interrupt :: post) s
      = loop hostname count trainS (pre ++ [Event.interrupt]) s := by
  induction pre generalizing s with
  | nil => simp [loop]
  | cons e es ih =>
    cases e <;> simp [loop, ih]

theorem processed_initial (hostname : String) (count trainS : Int) (events : List Event)
    (s : State) : processed hostname count trainS events s <+: events := by
  induction events generalizing s with
  | nil => simp [processed]
  | cons e es ih =>
    have hone : [e] <+: e :: es := ⟨es, rfl⟩
    cases e with
    | interrupt => simp [processed]
    | done err => simp [processed]
    | recv res size n =>
      simp only [processed]
      split_ifs
      · exact hone
      · exact hone
      · exact (List.prefix_cons_inj _).mpr (ih _)
    | idle n =>
      simp only [processed]
      split_ifs
      · exact hone
      · exact hone
      · exact (List.prefix_cons_inj _).mpr (ih _)

theorem loop_processed (hostname : String) (count trainS : Int) (events : List Event)
    (s : State) :
    loop hostname count trainS (processed hostname count trainS events s) s
        = loop hostname count trainS events s ∧
    (loop hostname count trainS events s).results
        = s.results ++ (replyEvents (processed hostname count trainS events s)).map rttMs ∧
    (loop hostname count trainS events s).received
        = s.received + ((replyEvents (processed hostname count trainS events s)).length : Int) ∧
    (s.status = Status.running → (loop hostname count trainS events s).status = Status.running →
      processed hostname count trainS events s = events) := by
  induction events generalizing s with
  | nil => simp [processed, loop, replyEvents]
  | cons e es ih =>
    cases e with
    | interrupt => simp [processed, loop, replyEvents]
    | done err => cases err <;> simp [processed, loop, replyEvents]
    | recv res size n =>
      obtain ⟨i1, i2, i3, i4⟩ := ih (onRecv s res size)
      obtain ⟨r1, _, r3, _, r5⟩ := onRecv_fields s res size
      by_cases h0 : trainS = 0
      · simp [processed, loop, replyEvents, h0, r1, r3]
      · by_cases hc : n.tdiv trainS ≥ count ∧ (onRecv s res size).received.tdiv trainS = count
        · simp only [processed, loop, replyEvents, h0, hc, if_false, if_true, and_self]
          simp [r1, r3]
        · simp only [processed, loop, replyEvents, h0, hc, if_false]
          refine ⟨i1, ?_, ?_, fun hs hr => ?_⟩
          · rw [i2, r3]; simp
          · rw [i3, r1]; simp only [List.length_cons]; push_cast; ring
          · rw [i4 (r5.trans hs) hr]
    | idle n =>
      obtain ⟨i1, i2, i3, i4⟩ := ih (onIdle hostname trainS s)
      obtain ⟨_, _, f3, f4, f5⟩ := onIdle_fields hostname trainS s
      by_cases h0 : trainS = 0
      · simp [processed, loop, replyEvents, h0]
      · by_cases hc : n.tdiv trainS ≥ count
        · simp [processed, loop, replyEvents, h0, hc]
        · simp only [processed, loop, replyEvents, h0, hc, if_false]
          refine ⟨i1, ?_, ?_, fun hs hr => ?_⟩
          · rw [i2, f4]
          · rw [i3, f3]
          · rw [i4 (f5.trans hs) hr]

/-- C10 (as stated, refuted): two replies of 16777216 ns and 16777217 ns leave
the same `float32` sample 8796093/524288 twice, which is not the list of their
RTTs in milliseconds. -/
theorem loop_samples_rounded :
    (loop "host" 10 1 [Event.recv ⟨"10.0.0.1", 16777216, 0⟩ 8 1,
        Event.recv ⟨"10.0.0.1", 16777217, 1⟩ 8 2] (init 1)).results
      = [8796093 / 524288, 8796093 / 524288] ∧
    ([8796093 / 524288, 8796093 / 524288] : List ℚ)
      ≠ [16777216 / 1000000, 16777217 / 1000000] := by
  refine ⟨?_, by norm_num⟩
  simp [loop, onRecv, init, rttMs_16777216, rttMs_16777217]

/-- C10 (amended): the loop run from its initial state handles a prefix of the
events (all of them if it is still running at the end); its samples are, for
the reply events of that prefix and in order of arrival, the `float32` numbers
`float32(rtt)/float32(time.Millisecond)`, each the RTT in milliseconds up to a
relative error of `2^-22`; `received` is their number; each reply handled adds
one to `received` and one to `crec`. -/
theorem loop_samples (hostname : String) (count trainS : Int) (events : List Event) :
    processed hostname count trainS events (init trainS) <+: events ∧
    loop hostname count trainS (processed hostname count trainS events (init trainS))
        (init trainS) = loop hostname count trainS events (init trainS) ∧
    (loop hostname count trainS events (init trainS)).results
        = (replyEvents (processed hostname count trainS events (init trainS))).map
            (fun res => roundF32 (roundF32 (res.rtt : ℚ) / 1000000)) ∧
    (∀ res : response,
      |roundF32 (roundF32 (res.rtt : ℚ) / 1000000) - (res.rtt : ℚ) / 1000000|
        ≤ |(res.rtt : ℚ) / 1000000| / 2 ^ 22) ∧
    (loop hostname count trainS events (init trainS)).received
        = ((replyEvents (processed hostname count trainS events (init trainS))).length : Int) ∧
    ((loop hostname count trainS events (init trainS)).status = Status.running →
      processed hostname count trainS events (init trainS) = events) ∧
    (∀ (s : State) (res : response) (size : Int),
      (onRecv s res size).received = s.received + 1 ∧
      (onRecv s res size).crec = s.crec + 1 ∧
      (onRecv s res size).results
        = s.results ++ [roundF32 (roundF32 (res.rtt : ℚ) / 1000000)]) := by
  obtain ⟨h1, h2, h3, h4⟩ := loop_processed hostname count trainS events (init trainS)
  refine ⟨processed_initial _ _ _ _ _, h1, ?_, ?_, ?_, h4 rfl, fun s res size => ⟨rfl, rfl, rfl⟩⟩
  · simpa [init] using h2
  · intro res
    have hb := rttMs_abs_sub_le res
    rwa [rttMs] at hb
  · simpa [init] using h3

theorem loop_samples_witness :
    (loop "host" 2 2 [Event.recv ⟨"10.0.0.1", 7000000, 1⟩ 8 2, Event.idle 2,
        Event.recv ⟨"10.0.0.1", 9000000, 0⟩ 8 4] (init 2)).status = Status.running ∧
    processed "host" 2 2 [Event.recv ⟨"10.0.0.1", 7000000, 1⟩ 8 2, Event.idle 2,
        Event.recv ⟨"10.0.0.1", 9000000, 0⟩ 8 4] (init 2)
      = [Event.recv ⟨"10.0.0.1", 7000000, 1⟩ 8 2, Event.idle 2,
        Event.recv ⟨"10.0.0.1", 9000000, 0⟩ 8 4] :=
  ⟨by decide,
   (loop_samples "host" 2 2 [Event.recv ⟨"10.0.0.1", 7000000, 1⟩ 8 2, Event.idle 2,
        Event.recv ⟨"10.0.0.1", 9000000, 0⟩ 8 4]).2.2.2.2.2.1 (by decide)⟩

end DelayTrains2

/-- C7: in both loops an interrupt event ends the run at once and leaves
`sent`, `received`, `crec`, the reply slots and the samples as they were; the
events that follow it are not handled: a run on `pre ++ [interrupt] ++ post`
ends in the same state as the run on `pre ++ [interrupt]`. -/
theorem interrupt_terminates :
    (∀ (count : Int) (s : PingGo.State) (post : List PingGo.Event),
      PingGo.loop count (PingGo.Event.interrupt :: post) s
        = if s.sent < count then
            { s with out := s.out ++ [Line.interrupted], status := Status.interrupted }
          else { s with status := Status.completed }) ∧
    (∀ (count : Int) (pre post : List PingGo.Event) (s : PingGo.State),
      PingGo.loop count (pre ++ [PingGo.Event.interrupt] ++ post) s
        = PingGo.loop count (pre ++ [PingGo.Event.interrupt]) s) ∧
    (∀ (hostname : String) (count trainS : Int) (s : DelayTrains2.State)
        (post : List DelayTrains2.Event),
      DelayTrains2.loop hostname count trainS (DelayTrains2.Event.interrupt :: post) s
        = { s with status := Status.interrupted }) ∧
    (∀ (hostname : String) (count trainS : Int) (pre post : List DelayTrains2.Event)
        (s : DelayTrains2.State),
      DelayTrains2.loop hostname count trainS (pre ++ [DelayTrains2.Event.interrupt] ++ post) s
        = DelayTrains2.loop hostname count trainS (pre ++ [DelayTrains2.Event.interrupt]) s) := by
  refine ⟨fun count s post => ?_, fun count pre post s => ?_, fun _ _ _ _ _ => rfl,
    fun hostname count trainS pre post s => ?_⟩
  · by_cases h : s.sent < count <;> simp [PingGo.loop, h]
  · simpa using PingGo.loopA_interrupt_cut count pre post s
  · simpa using DelayTrains2.loopB_interrupt_cut hostname count trainS pre post s

namespace DelayTrains2

/-! ## Delay_Trains2.go: the export -/

theorem lookup_of_mem (tbl : List (Int × ℚ)) (h : (keysOf tbl).Nodup) (k : Int) (v : ℚ)
    (hm : (k, v) ∈ tbl) : tbl.lookup k = some v := by
  induction tbl with
  | nil => simp at hm
  | cons e es ih =>
    obtain ⟨k0, v0⟩ := e
    simp only [keysOf, List.map_cons, List.nodup_cons] at h
    rcases List.mem_cons.mp hm with heq | hin
    · cases heq
      simp
    · have hne : k ≠ k0 := by
        rintro rfl
        exact h.1 (List.mem_map.mpr ⟨_, hin, rfl⟩)
      have hb : (k == k0) = false := by simpa using hne
      rw [List.lookup_cons, hb]
      exact ih h.2 hin

theorem valueAt_of_mem (tbl : List (Int × ℚ)) (h : (keysOf tbl).Nodup) (k : Int) (v : ℚ)
    (hm : (k, v) ∈ tbl) : valueAt tbl k = v := by
  simp [valueAt, lookup_of_mem tbl h k v hm]

theorem sortInts_perm (keys : List Int) : (sortInts keys).Perm keys :=
  List.perm_insertionSort _ keys

theorem sortInts_sorted (keys : List Int) : (sortInts keys).Sorted (fun a b => a ≤ b) :=
  List.sorted_insertionSort _ keys

theorem exportRows_keys (tbl : List (Int × ℚ)) :
    (exportRows tbl).map Prod.fst = sortInts (keysOf tbl) := by
  simp [exportRows, List.map_map, Function.comp_def]

theorem exportRows_perm (tbl : List (Int × ℚ)) (h : (keysOf tbl).Nodup) :
    (exportRows tbl).Perm tbl := by
  have h1 : (exportRows tbl).Perm ((keysOf tbl).map (fun k => (k, valueAt tbl k))) :=
    (sortInts_perm (keysOf tbl)).map _
  have h2 : (keysOf tbl).map (fun k => (k, valueAt tbl k)) = tbl := by
    rw [keysOf, List.map_map]
    conv_rhs => rw [← List.map_id tbl]
    apply List.map_congr_left
    intro e he
    simp only [Function.comp, id]
    rw [valueAt_of_mem tbl h e.1 e.2 he]
  rw [h2] at h1
  exact h1

theorem exportRows_congr (tbl tbl2 : List (Int × ℚ)) (h : (keysOf tbl).Nodup)
    (hp : tbl2.Perm tbl) : exportRows tbl2 = exportRows tbl := by
  have hk : (keysOf tbl2).Perm (keysOf tbl) := hp.map _
  have h2 : (keysOf tbl2).Nodup := hk.nodup_iff.mpr h
  have hs : sortInts (keysOf tbl2) = sortInts (keysOf tbl) :=
    List.eq_of_perm_of_sorted
      (((sortInts_perm _).trans hk).trans (sortInts_perm _).symm)
      (sortInts_sorted _) (sortInts_sorted _)
  rw [exportRows, exportRows, hs]
  apply List.map_congr_left
  intro k hk2
  have hmem : k ∈ keysOf tbl := (sortInts_perm _).mem_iff.mp hk2
  obtain ⟨e, he, rfl⟩ := List.mem_map.mp hmem
  rw [valueAt_of_mem tbl h e.1 e.2 he, valueAt_of_mem tbl2 h2 e.1 e.2 (hp.mem_iff.mpr he)]

/-- C5: for a table with one entry per key, the export writes one line per
entry: the rows written are a rearrangement of the entries of the table, their
sequence numbers are strictly ascending, and the file does not depend on the
order in which the table holds (or received) its entries. -/
theorem exportFile_ascending (tbl : List (Int × ℚ)) (h : (keysOf tbl).Nodup) :
    (exportFile tbl).length = tbl.length ∧
    exportFile tbl = (exportRows tbl).map (fun row => exportLine row.1 row.2) ∧
    (exportRows tbl).Perm tbl ∧
    ((exportRows tbl).map Prod.fst).Sorted (fun a b => a < b) ∧
    (∀ tbl2 : List (Int × ℚ), tbl2.Perm tbl → exportFile tbl2 = exportFile tbl) := by
  have hp := exportRows_perm tbl h
  refine ⟨?_, rfl, hp, ?_, fun tbl2 hp2 => ?_⟩
  · rw [exportFile, List.length_map, hp.length_eq]
  · rw [exportRows_keys]
    exact (sortInts_sorted _).lt_of_le ((sortInts_perm _).nodup_iff.mpr h)
  · rw [exportFile, exportFile, exportRows_congr tbl tbl2 h hp2]

theorem exportFile_ascending_witness :
    (keysOf [(7, 12), (2, 5), (4, 9)]).Nodup ∧
    exportRows [(7, 12), (2, 5), (4, 9)] = [(2, 5), (4, 9), (7, 12)] ∧
    exportFile [(2, 5), (7, 12), (4, 9)] = exportFile [(7, 12), (2, 5), (4, 9)] ∧
    exportFile [(7, 12), (2, 5), (4, 9)] = ["2\t 5.00\n", "4\t 9.00\n", "7\t 12.00\n"] :=
  have h := exportFile_ascending [(7, 12), (2, 5), (4, 9)] (by decide)
  ⟨by decide, by decide, h.2.2.2.2 [(2, 5), (7, 12), (4, 9)] (by decide), by decide⟩

theorem exportLine_eq (k : Int) (v : ℚ) :
    exportLine k v = toString k ++ "\t" ++ " " ++ fmtF2 v ++ "\n" := by
  unfold exportLine
  show sprintf ['%', 'd', '\t', ' ', '%', '.', '2', 'f', '\n'] _ = _
  simp only [sprintf, String.append_assoc]
  rfl

/-- C6 (as stated, refuted): the line written for the entry `(1, 5)` is
`"1\t 5.00\n"`, with a space between the tab and the RTT; it is not the
sequence number, a tab, the RTT and a newline. -/
theorem exportLine_has_space :
    exportFile [(1, 5)] = ["1\t 5.00\n"] ∧
    exportLine 1 5 ≠ toString (1 : Int) ++ "\t" ++ fmtF2 5 ++ "\n" := by
  decide

/-- C6 (amended): for a table with one entry per key, the file holds, for every
entry `(k, v)`, the line made of the decimal `k`, one tab, one space, `v`
formatted to two decimals and a newline, and it holds no other line. -/
theorem exportLine_format (tbl : List (Int × ℚ)) (h : (keysOf tbl).Nodup) :
    (∀ k v, (k, v) ∈ tbl →
      toString k ++ "\t" ++ " " ++ fmtF2 v ++ "\n" ∈ exportFile tbl) ∧
    (∀ line ∈ exportFile tbl, ∃ k v, (k, v) ∈ tbl ∧
      line = toString k ++ "\t" ++ " " ++ fmtF2 v ++ "\n") := by
  have hp := exportRows_perm tbl h
  constructor
  · intro k v hm
    rw [← exportLine_eq]
    exact List.mem_map.mpr ⟨(k, v), hp.mem_iff.mpr hm, rfl⟩
  · intro line hl
    obtain ⟨row, hrow, rfl⟩ := List.mem_map.mp hl
    exact ⟨row.1, row.2, hp.mem_iff.mp hrow, exportLine_eq _ _⟩

theorem exportLine_format_witness :
    (keysOf [(7, 12), (2, 5)]).Nodup ∧
    toString (2 : Int) ++ "\t" ++ " " ++ fmtF2 5 ++ "\n" ∈ exportFile [(7, 12), (2, 5)] ∧
    toString (2 : Int) ++ "\t" ++ " " ++ fmtF2 5 ++ "\n" = "2\t 5.00\n" :=
  ⟨by decide, (exportLine_format [(7, 12), (2, 5)] (by decide)).1 2 5 (by decide), by decide⟩

end DelayTrains2

end PingReview
